import Mathlib

/-!
Shallow embedding of the xstate-paths path/segment exploration and
deduplication engine, translated from the repository sources
(src/lib/event-source.ts, src/lib/event-executor.ts, the Segment module,
src/lib/util/cache.ts), together with theorems settling the claims about it.

Modelling conventions:
* The state machine is an external collaborator; its states are modelled as
  plain data (`XState`), and the machine itself (`Machine`) carries the
  transition function, the initial state, and the hierarchical
  `State.matches` capability of xstate states.
* State values are compared in the source only through `JSON.stringify`;
  we therefore represent a state value directly by its serialized string.
* Event payloads enter descriptions only through
  `JSON.stringify(omit(event, ["type"]))`; we represent that serialization
  by an optional string, `none` standing for an empty payload.
* Lazy generator sequences are finite and restartable by the contract of
  the spec, so they are modelled as lists; an event-source entry is
  modelled as a function producing its list anew on each invocation.
-/

set_option linter.unusedVariables false

namespace XStatePaths

/-- An xstate event object: a `type` plus arbitrary payload fields.
`dataStr` is the JSON serialization of the non-type payload fields;
`none` models an empty payload (radash `isEmpty` of the omitted record). -/
structure XEvent where
  type : String
  dataStr : Option String := none
deriving DecidableEq, Repr

/-- One entry of an xstate state's `actions` list. The source only inspects
whether `action.exec` is a function before awaiting it; `id` identifies the
action so that invocation traces can be observed. -/
structure ActionObj where
  id : Nat
  hasExec : Bool
deriving DecidableEq, Repr

/-- An xstate state snapshot as consumed by the engine: a serialized value,
the event that produced it, the done flag, the enabled event types, the
pending actions and the result of `toStrings()`. -/
structure XState where
  value : String
  event : XEvent
  done : Bool
  nextEvents : List String
  actions : List ActionObj
  toStrings : List String
deriving DecidableEq, Repr

/-- The external machine collaborator: initial state, pure deterministic
transition function, and the hierarchical `State.matches` capability that
xstate states expose (used by `Segment.assertMatchesTarget`). -/
structure Machine where
  initialState : XState
  transition : XState → XEvent → XState
  stateMatches : XState → String → Bool

/-- One value of the event-source map: a fixed event list, a function
returning an event list, or a generator factory (whose finite, restartable
yield sequence we model as the produced list). -/
inductive EventSourceArg where
  | fixedList (events : List XEvent)
  | creatorFn (f : Unit → List XEvent)
  | generatorFn (f : Unit → List XEvent)

/-- The events an `EventSourceArg` enumerates, in order. -/
def EventSourceArg.argEvents : EventSourceArg → List XEvent
  | .fixedList events => events
  | .creatorFn f => f ()
  | .generatorFn f => f ()

/-- A normalized event source: for each event type, optionally a restartable
producer of that type's candidate events (the `sources` map of the class). -/
structure EventSource where
  sources : String → Option (Unit → List XEvent)

/-- EventSource.getGenerator: normalize one map entry into a restartable
sequence factory. An array becomes `() => generatorFromArray(source)`; a
function is invoked and its array-or-generator result is normalized. -/
def EventSource.getGenerator : EventSourceArg → Unit → List XEvent
  | .fixedList events => fun _ => events
  | .creatorFn f => fun _ => f ()
  | .generatorFn f => fun _ => f ()

/-- The EventSource constructor: build the `sources` map from the options
record by normalizing every entry with `getGenerator`. -/
def EventSource.ofMap (options : List (String × EventSourceArg)) : EventSource :=
  ⟨fun type => (options.find? (fun kv => kv.fst == type)).map
    (fun kv => EventSource.getGenerator kv.snd)⟩

/-- A `new EventSource()` with no options: the sources map is empty. -/
def EventSource.empty : EventSource := ⟨fun _ => none⟩

/-- EventSource.generateEvents: yield the registered source's events for the
given type, or the single payload-free event when no source is registered. -/
def EventSource.generateEvents (es : EventSource) (type : String) : List XEvent :=
  match es.sources type with
  | some source => source ()
  | none => [{ type := type }]

/-- The nested loop of `generateNextEvents`: for each type in order, yield
every event of `generateEvents type`. -/
def EventSource.generateEventsForTypes (es : EventSource) : List String → List XEvent
  | [] => []
  | type :: rest => es.generateEvents type ++ es.generateEventsForTypes rest

/-- EventSource.generateNextEvents: all events that can cause `fromState` to
transition, looping over `fromState.nextEvents` in the state's own order. -/
def EventSource.generateNextEvents (es : EventSource) (fromState : XState) : List XEvent :=
  es.generateEventsForTypes fromState.nextEvents

/-- A segment: the machine state reached by applying one event (the state
carries that event). The machine is threaded as an explicit parameter
instead of a stored field so that segments stay comparable data. -/
structure Segment where
  state : XState
deriving DecidableEq, Repr

/-- Segment.target: the target state's value. -/
def Segment.target (seg : Segment) : String := seg.state.value

/-- Segment.event: the event recorded on the target state. -/
def Segment.event (seg : Segment) : XEvent := seg.state.event

/-- Segment.eventDescription: event type, followed by the serialized payload
when the payload is non-empty. -/
def Segment.eventDescription (seg : Segment) : String :=
  match seg.event.dataStr with
  | some data => seg.event.type ++ " " ++ data
  | none => seg.event.type

/-- Segment.stateDescription: the leaf strings of `state.toStrings()` (those
of which no other string is a dotted extension), joined with a comma. -/
def Segment.stateDescription (seg : Segment) : String :=
  let stateStrings := seg.state.toStrings
  String.intercalate ", "
    (stateStrings.filter fun str => !(stateStrings.any fun s => s.startsWith (str ++ ".")))

/-- Segment.description: event description and state description. -/
def Segment.description (seg : Segment) : String :=
  seg.eventDescription ++ " -> " ++ seg.stateDescription

/-- Segment.matches: textual identity of the full descriptions. -/
def Segment.matchesSeg (seg other : Segment) : Bool :=
  seg.description == other.description

/-- Segment.hasSameTarget: equality of the stringified target values. -/
def Segment.hasSameTarget (seg other : Segment) : Bool :=
  seg.target == other.target

/-- Segment.hasSimilarEvent: equality of the event types. -/
def Segment.hasSimilarEvent (seg other : Segment) : Bool :=
  seg.event.type == other.event.type

/-- Segment.isSimilar: same event type and same target value. -/
def Segment.isSimilar (seg other : Segment) : Bool :=
  seg.hasSimilarEvent other && seg.hasSameTarget other

/-- Segment.reachesState: the target value equals the given state's value. -/
def Segment.reachesState (seg : Segment) (state : XState) : Bool :=
  seg.target == state.value

/-- Segment.isFinal: the target state is done or has no enabled events. -/
def Segment.isFinal (seg : Segment) : Bool :=
  seg.state.done || seg.state.nextEvents.length == 0

/-- Segment.generateNextSegments: when the target state is not done, one new
segment per candidate event from the event source, wrapping the transition
result, in the order the events are produced. -/
def Segment.generateNextSegments (seg : Segment) (machine : Machine)
    (eventSource : EventSource) : List Segment :=
  if seg.state.done then []
  else (eventSource.generateNextEvents seg.state).map
    (fun event => ⟨machine.transition seg.state event⟩)

/-- The invocation trace of `runActions`: the ids of the actions whose `exec`
is a function, in the order the state reports them (each awaited in turn). -/
def Segment.runActionsTrace (state : XState) : List Nat :=
  (state.actions.filter fun action => action.hasExec).map fun action => action.id

/-- Segment.applyEvent: transition the given state by the segment's event and
run the resulting state's actions; returns the next state together with the
trace of the action invocations that happened inside this call. -/
def Segment.applyEvent (seg : Segment) (machine : Machine) (state : XState) :
    XState × List Nat :=
  let nextState := machine.transition state seg.event
  (nextState, Segment.runActionsTrace nextState)

/-- Segment.run: first `applyEvent` (transition plus action execution), then
`assertMatchesTarget`, which throws a replay-mismatch error when the reached
value does not match the recorded target state. The second component is the
trace of side-effect actions invoked during the call. -/
def Segment.run (seg : Segment) (machine : Machine) (state : XState) :
    Except String XState × List Nat :=
  let applied := seg.applyEvent machine state
  if machine.stateMatches seg.state applied.fst.value then
    (Except.ok applied.fst, applied.snd)
  else
    (Except.error ("Expected state to be " ++ seg.state.value ++ ", but was "
      ++ applied.fst.value), applied.snd)

/-- A path: an ordered list of segments. As with `Segment`, the machine is
threaded as a parameter so paths stay comparable data. -/
structure Path where
  segments : List Segment
deriving DecidableEq, Repr

/-- The Path constructor: when no segments are given, seed the path with the
synthetic initial segment for the machine's initial state. -/
def Path.new (machine : Machine) (segments : List Segment) : Path :=
  if segments.isEmpty then ⟨[⟨machine.initialState⟩]⟩ else ⟨segments⟩

/-- Path.description: every segment description joined with the arrow
separator; the sole identity used for matching and containment. -/
def Path.description (path : Path) : String :=
  String.intercalate " -> " (path.segments.map Segment.description)

/-- Path.lastSegment: the last segment, if there is one. -/
def Path.lastSegment (path : Path) : Option Segment :=
  path.segments.getLast?

/-- Path.isFinal: the path ends in a final segment. -/
def Path.isFinal (path : Path) : Bool :=
  (path.lastSegment.map Segment.isFinal).getD false

/-- Path.countSimilarSegments: how many segments of the path are similar to
the given segment. -/
def Path.countSimilarSegments (path : Path) (segment : Segment) : Nat :=
  (path.segments.filter fun s => s.isSimilar segment).length

/-- Path.includes: string containment of the full descriptions, modelling
JavaScript `String.prototype.includes` by list-infix on the characters. -/
def Path.includesPath (path other : Path) : Bool :=
  decide (other.description.data <:+: path.description.data)

/-- Path.defaultSegmentFilter: accept a candidate segment only when fewer
than two similar segments already occur in the current path. -/
def Path.defaultSegmentFilter (segment : Segment) (path : Path) : Bool :=
  decide (path.countSimilarSegments segment < 2)

/-- Path.defaultPathFilter: accept only final paths. -/
def Path.defaultPathFilter (path : Path) : Bool :=
  path.isFinal

/-- Options for `Path.makePaths`, all optional, resolved to their defaults
inside the generation routine exactly as the source destructuring does. -/
structure MakePathOptions where
  eventSource : Option EventSource := none
  maxLength : Option Nat := none
  deduplicate : Bool := false
  filterSegment : Option (Segment → Path → Bool) := none
  filterPath : Option (Path → Bool) := none

/-- The body of `Path.generateNextPaths`, with an explicit recursion-depth
budget so the definition is structural. The budget is an upper bound on the
recursion depth: recursion only happens while the extended path is strictly
shorter than the resolved `maxLength`, and each recursive call works on a
path one segment longer, so a budget of `maxLength + 1` can never run out
(the wrapper below supplies it). For each candidate next segment, in event
order: skip it when the segment filter rejects it; otherwise append it,
yield the extended path when the path filter accepts it, and recurse when
the extended path is neither final nor at the length ceiling. -/
def Path.generateNextPathsAux (machine : Machine) (options : MakePathOptions) :
    Nat → Path → List Path
  | 0, _ => []
  | fuel + 1, path =>
    let maxLength := options.maxLength.getD 10
    let filterSegment := options.filterSegment.getD Path.defaultSegmentFilter
    let filterPath := options.filterPath.getD Path.defaultPathFilter
    let eventSource := options.eventSource.getD EventSource.empty
    let nextSegments :=
      match path.lastSegment with
      | some seg => seg.generateNextSegments machine eventSource
      | none => []
    nextSegments.flatMap fun nextSegment =>
      if filterSegment nextSegment path then
        let nextPath := Path.new machine (path.segments ++ [nextSegment])
        (if filterPath nextPath then [nextPath] else []) ++
        (if !nextPath.isFinal && nextPath.segments.length < maxLength then
          Path.generateNextPathsAux machine options fuel nextPath
        else [])
      else []

/-- Path.generateNextPaths: the depth-first, pre-order recursive extension of
one path (see `generateNextPathsAux` for the recursion body). -/
def Path.generateNextPaths (machine : Machine) (options : MakePathOptions)
    (path : Path) : List Path :=
  Path.generateNextPathsAux machine options (options.maxLength.getD 10 + 1) path

/-- Path.generatePaths: yield the path to the initial state when the path
filter accepts it, then everything `generateNextPaths` produces from it. -/
def Path.generatePaths (machine : Machine) (options : MakePathOptions) : List Path :=
  let filterPath := options.filterPath.getD Path.defaultPathFilter
  let pathToInitialState := Path.new machine []
  (if filterPath pathToInitialState then [pathToInitialState] else []) ++
    Path.generateNextPaths machine options pathToInitialState

/-- The comparator of `Path.deduplicate`, as a sort precedence: with the
JavaScript comparator `(a, b) => b.length - a.length`, `a` precedes `b`
exactly when `b` has at most as many segments as `a` (longest first). -/
def Path.byLengthDesc (a b : Path) : Bool :=
  decide (b.segments.length ≤ a.segments.length)

/-- The greedy keep loop of `Path.deduplicate`: walk the sorted paths and
keep a path only when no already-kept path's description contains its
description. -/
def Path.dedupLoop (deduplicatedPaths : List Path) : List Path → List Path
  | [] => deduplicatedPaths
  | path :: rest =>
    if deduplicatedPaths.any fun p => p.includesPath path then
      Path.dedupLoop deduplicatedPaths rest
    else
      Path.dedupLoop (deduplicatedPaths ++ [path]) rest

/-- Path.deduplicate: sort longest-first (JavaScript sort is stable, modelled
by the stable merge sort), greedily keep non-contained paths, and reverse
the kept order on output. -/
def Path.deduplicate (paths : List Path) : List Path :=
  (Path.dedupLoop [] (paths.mergeSort Path.byLengthDesc)).reverse

/-- The caller-visible content of the `paths` argument array after
`Path.deduplicate` returns: `Array.prototype.sort` sorts the caller's array
in place, so the argument ends up reordered longest-first even though the
function returns a separately allocated result array. -/
def Path.deduplicateArgEffect (paths : List Path) : List Path :=
  paths.mergeSort Path.byLengthDesc

/-- Path.makePaths: materialize `generatePaths` and optionally deduplicate. -/
def Path.makePaths (machine : Machine) (options : MakePathOptions) : List Path :=
  if options.deduplicate then Path.deduplicate (Path.generatePaths machine options)
  else Path.generatePaths machine options

/-! The cache decorator of src/lib/util/cache.ts, modelled per instance. The
decorator keeps a WeakMap from the instance to a Map from property key to
cached value; getters here compute strings, so cached values are strings. -/

/-- The per-instance property cache Map (insertion-ordered key/value list). -/
structure PropertyCache where
  entries : List (String × String)
deriving DecidableEq, Repr

/-- JavaScript Map.get: the value stored under the key, if any. -/
def mapGet (entries : List (String × String)) (key : String) : Option String :=
  (entries.find? fun kv => kv.fst == key).map fun kv => kv.snd

/-- JavaScript Map.set: replace the value under an existing key, else append. -/
def mapSet : List (String × String) → String → String → List (String × String)
  | [], key, value => [(key, value)]
  | kv :: rest, key, value =>
    if kv.fst == key then (key, value) :: rest else kv :: mapSet rest key value

/-- JavaScript truthiness of a string value: every string except the empty
string is truthy. -/
def jsTruthyStr (s : String) : Bool := s != ""

/-- One read through the replaced getter of the cache decorator: when the
cache holds no truthy value under the property key, invoke the original
getter, store its result, and answer from the cache; otherwise answer the
cached value without invoking the getter. The Bool reports whether the
original getter was invoked by this read. -/
def cacheRead (c : PropertyCache) (propertyKey : String) (originalGetter : Unit → String) :
    String × PropertyCache × Bool :=
  let cached := mapGet c.entries propertyKey
  match cached with
  | some v =>
    if jsTruthyStr v then (v, c, false)
    else
      let propertyValue := originalGetter ()
      let entries := mapSet c.entries propertyKey propertyValue
      ((mapGet entries propertyKey).getD "", ⟨entries⟩, true)
  | none =>
    let propertyValue := originalGetter ()
    let entries := mapSet c.entries propertyKey propertyValue
    ((mapGet entries propertyKey).getD "", ⟨entries⟩, true)

/-- How many of `n` successive reads of the same cached getter invoke the
original getter, starting from the given cache state. -/
def cacheReadCount (propertyKey : String) (originalGetter : Unit → String) :
    Nat → PropertyCache → Nat
  | 0, _ => 0
  | n + 1, c =>
    let read := cacheRead c propertyKey originalGetter
    (if read.snd.snd then 1 else 0) + cacheReadCount propertyKey originalGetter n read.snd.fst

/-! The EventExecutor of src/lib/event-executor.ts. Its `execs` Map is built
from `Object.entries(execs)`, so every key is a string; `exec` then probes
the Map with `state.event`, which is the event object itself. JavaScript Map
lookup uses SameValueZero equality, under which a string key never equals an
object, so the two kinds of key are modelled by a tagged type. Callbacks are
identified by number; `exec` returns the callback it invokes, `none` when
the lookup misses and the optional call is skipped. -/

/-- A JavaScript Map key as used around EventExecutor: either a string (the
registered keys) or an event object (the probe `state.event`). -/
inductive JSKey where
  | str (s : String)
  | eventObj (e : XEvent)

/-- SameValueZero on such keys: strings compare by value; a string and an
object are never equal; object identity is not needed here and two event
objects are distinct references in this code, so they compare unequal. -/
def jsKeyEq : JSKey → JSKey → Bool
  | .str a, .str b => a == b
  | .eventObj _, .eventObj _ => false
  | _, _ => false

/-- The EventExecutor: its `execs` Map from JavaScript keys to callbacks. -/
structure EventExecutor where
  execs : List (JSKey × Nat)

/-- The EventExecutor constructor: `new Map(Object.entries(execs))` turns the
options record into a Map whose keys are all strings. -/
def EventExecutor.ofRecord (execs : List (String × Nat)) : EventExecutor :=
  ⟨execs.map fun kv => (JSKey.str kv.fst, kv.snd)⟩

/-- EventExecutor.exec: take `state.event` and probe the Map with it; invoke
the found callback or silently do nothing. -/
def EventExecutor.exec (ex : EventExecutor) (state : XState) : Option Nat :=
  let event := state.event
  (ex.execs.find? fun kv => jsKeyEq kv.fst (JSKey.eventObj event)).map fun kv => kv.snd

/-- The lookup the EventExecutor tests and spec expect: probe the Map with
the string `state.event.type` instead of the event object. -/
def EventExecutor.lookupByEventType (ex : EventExecutor) (state : XState) : Option Nat :=
  (ex.execs.find? fun kv => jsKeyEq kv.fst (JSKey.str state.event.type)).map fun kv => kv.snd

/-! Concrete fixtures used by counterexamples and witnesses. -/

/-- A start state with one enabled event `E`. -/
def stStart : XState :=
  { value := "A", event := { type := "xstate.init" }, done := false,
    nextEvents := ["E"], actions := [], toStrings := ["A"] }

/-- The final state reached from `stStart` by `E`. -/
def stEnd : XState :=
  { value := "B", event := { type := "E" }, done := true,
    nextEvents := [], actions := [], toStrings := ["B"] }

/-- A two-state linear machine: `A --E--> B`, `B` final. -/
def machineLinear : Machine :=
  { initialState := stStart,
    transition := fun s e => if s.value == "A" && e.type == "E" then stEnd else s,
    stateMatches := fun s v => s.value == v }

/-- Options requesting a maximum path length of one segment. -/
def optsMaxOne : MakePathOptions := { maxLength := some 1 }

/-- The one path the linear machine generates: init, then `E` to `B`. -/
def pathLinear : Path := ⟨[⟨stStart⟩, ⟨stEnd⟩]⟩

/-- A segment recording target value `A` and event `GO` (replay fixture). -/
def segRecordedA : Segment :=
  ⟨{ value := "A", event := { type := "GO" }, done := false,
     nextEvents := ["GO"], actions := [], toStrings := ["A"] }⟩

/-- A state with value `B` carrying one executable action, id 0. -/
def stWrongB : XState :=
  { value := "B", event := { type := "GO" }, done := true,
    nextEvents := [], actions := [{ id := 0, hasExec := true }], toStrings := ["B"] }

/-- A machine whose transition always lands on `stWrongB`: replaying
`segRecordedA` on it makes the target assertion fail. -/
def machineMismatch : Machine :=
  { initialState := stStart,
    transition := fun _ _ => stWrongB,
    stateMatches := fun s v => s.value == v }

/-- A final segment whose description is the string `E -> s`. -/
def segS : Segment :=
  ⟨{ value := "s", event := { type := "E" }, done := true,
     nextEvents := [], actions := [], toStrings := ["s"] }⟩

/-- A final segment whose description is the string `E -> ss`. -/
def segSS : Segment :=
  ⟨{ value := "ss", event := { type := "E" }, done := true,
     nextEvents := [], actions := [], toStrings := ["ss"] }⟩

/-- A one-segment path described by `E -> s`. -/
def pathS : Path := ⟨[segS]⟩

/-- A one-segment path described by `E -> ss`, which contains `E -> s`. -/
def pathSS : Path := ⟨[segSS]⟩

/-- A two-segment path, used as a longer companion to `pathS`. -/
def pathTwoSegs : Path := ⟨[segS, segSS]⟩

/-- A state produced by an `EVENT1` event, for the executor fixtures. -/
def stEvent1 : XState :=
  { value := "s", event := { type := "EVENT1" }, done := false,
    nextEvents := [], actions := [], toStrings := ["s"] }

/-- A segment whose event type is the empty string, so its event description
is the empty (falsy) string. -/
def segEmptyType : Segment :=
  ⟨{ value := "s", event := { type := "" }, done := true,
     nextEvents := [], actions := [], toStrings := ["s"] }⟩


/-! Helper lemmas about path construction and generation. -/

/-- Constructing a path from a nonempty segment list never reseeds it. -/
theorem Path.new_append (machine : Machine) (segs : List Segment) (s : Segment) :
    Path.new machine (segs ++ [s]) = ⟨segs ++ [s]⟩ := by
  cases segs <;> simp [Path.new]

/-- The occurrence count, in a path, of segments bearing a given event type
and target state value; this formalizes the pair counting of the cycle-guard
claim, and coincides with `countSimilarSegments` at the pair of a segment. -/
def Path.countEventTargetPair (path : Path) (type value : String) : Nat :=
  (path.segments.filter fun s => s.state.event.type == type && s.state.value == value).length

/-- Counting similar segments is counting the candidate segment's pair. -/
theorem Path.countSimilarSegments_eq_pair (path : Path) (seg : Segment) :
    path.countSimilarSegments seg
      = path.countEventTargetPair seg.state.event.type seg.state.value := rfl

/-- Appending one segment changes only the count of that segment's pair. -/
theorem Path.countEventTargetPair_append (path : Path) (s : Segment)
    (type value : String) :
    Path.countEventTargetPair ⟨path.segments ++ [s]⟩ type value
      = Path.countEventTargetPair path type value
        + (if s.state.event.type == type && s.state.value == value then 1 else 0) := by
  simp only [Path.countEventTargetPair, List.filter_append, List.length_append]
  split <;> simp_all

/-- Length bound for the recursion body: everything it yields from a path is
at most one segment longer than that path or within the length option. -/
theorem Path.mem_generateNextPathsAux_length (machine : Machine)
    (options : MakePathOptions) :
    ∀ fuel path, ∀ q ∈ Path.generateNextPathsAux machine options fuel path,
      q.segments.length ≤ max (options.maxLength.getD 10) (path.segments.length + 1) := by
  intro fuel
  induction fuel with
  | zero => simp [Path.generateNextPathsAux]
  | succ n ih =>
    intro path q hq
    simp only [Path.generateNextPathsAux, List.mem_flatMap] at hq
    obtain ⟨seg, hseg, hq⟩ := hq
    split at hq
    case isFalse => simp at hq
    case isTrue =>
      rw [Path.new_append] at hq
      rcases List.mem_append.mp hq with h | h
      · have hql : q = Path.mk (path.segments ++ [seg]) := by
          split at h <;> simp_all
        subst hql
        simp only [List.length_append, List.length_cons, List.length_nil]
        omega
      · split at h
        case isFalse => simp at h
        case isTrue hcond =>
          have hlt : (path.segments ++ [seg]).length < options.maxLength.getD 10 := by
            have := (Bool.and_eq_true _ _).mp hcond
            exact of_decide_eq_true this.2
          have hrec := ih (Path.mk (path.segments ++ [seg])) q h
          simp only [List.length_append, List.length_cons, List.length_nil] at hrec hlt ⊢
          omega

/-- Cycle-guard invariant for the recursion body: when the segment filter
option is absent (so the default, similarity-capped filter is in force),
every yielded extension of a path whose per-pair counts are at most two
again has all per-pair counts at most two. -/
theorem Path.mem_generateNextPathsAux_pairBound (machine : Machine)
    (options : MakePathOptions) (hf : options.filterSegment = none) :
    ∀ fuel path, (∀ type value, path.countEventTargetPair type value ≤ 2) →
      ∀ q ∈ Path.generateNextPathsAux machine options fuel path,
        ∀ type value, q.countEventTargetPair type value ≤ 2 := by
  intro fuel
  induction fuel with
  | zero => simp [Path.generateNextPathsAux]
  | succ n ih =>
    intro path hinv q hq
    simp only [Path.generateNextPathsAux, List.mem_flatMap, hf, Option.getD_none] at hq
    obtain ⟨seg, hseg, hq⟩ := hq
    split at hq
    case isFalse => simp at hq
    case isTrue haccept =>
      have hcount : path.countEventTargetPair seg.state.event.type seg.state.value < 2 := by
        rw [← Path.countSimilarSegments_eq_pair]
        exact of_decide_eq_true haccept
      rw [Path.new_append] at hq
      have hnext : ∀ type value,
          Path.countEventTargetPair ⟨path.segments ++ [seg]⟩ type value ≤ 2 := by
        intro type value
        rw [Path.countEventTargetPair_append]
        by_cases hp : (seg.state.event.type == type && seg.state.value == value) = true
        · have ht : seg.state.event.type = type := by
            have := (Bool.and_eq_true _ _).mp hp
            exact eq_of_beq this.1
          have hv : seg.state.value = value := by
            have := (Bool.and_eq_true _ _).mp hp
            exact eq_of_beq this.2
          rw [hp, if_pos rfl]
          have : Path.countEventTargetPair path type value < 2 := ht ▸ hv ▸ hcount
          omega
        · rw [if_neg hp]
          have := hinv type value
          omega
      rcases List.mem_append.mp hq with h | h
      · have hql : q = Path.mk (path.segments ++ [seg]) := by
          split at h <;> simp_all
        subst hql
        exact hnext
      · split at h
        case isFalse => simp at h
        case isTrue => exact ih (Path.mk (path.segments ++ [seg])) hnext q h

/-- Everything the keep loop returns comes from its accumulator or input. -/
theorem Path.mem_dedupLoop (p : Path) :
    ∀ l acc, p ∈ Path.dedupLoop acc l → p ∈ acc ∨ p ∈ l := by
  intro l
  induction l with
  | nil => intro acc h; exact Or.inl h
  | cons x rest ih =>
    intro acc h
    simp only [Path.dedupLoop] at h
    split at h
    · rcases ih acc h with h' | h'
      · exact Or.inl h'
      · exact Or.inr (List.mem_cons_of_mem _ h')
    · rcases ih (acc ++ [x]) h with h' | h'
      · rcases List.mem_append.mp h' with h'' | h''
        · exact Or.inl h''
        · simp only [List.mem_singleton] at h''
          exact Or.inr (h'' ▸ List.mem_cons_self _ _)
      · exact Or.inr (List.mem_cons_of_mem _ h')

/-- Deduplication never invents paths: its output is a subset of its input. -/
theorem Path.mem_of_mem_deduplicate {p : Path} {paths : List Path}
    (h : p ∈ Path.deduplicate paths) : p ∈ paths := by
  simp only [Path.deduplicate, List.mem_reverse] at h
  rcases Path.mem_dedupLoop p _ [] h with h' | h'
  · simp at h'
  · exact (List.mergeSort_perm paths Path.byLengthDesc).mem_iff.mp h'

/-- Everything `makePaths` returns was yielded by `generatePaths`. -/
theorem Path.mem_makePaths_subset {machine : Machine} {options : MakePathOptions}
    {p : Path} (h : p ∈ Path.makePaths machine options) :
    p ∈ Path.generatePaths machine options := by
  unfold Path.makePaths at h
  split at h
  · exact Path.mem_of_mem_deduplicate h
  · exact h

/-- The path to the initial state is the seeded one-segment path. -/
theorem Path.new_nil (machine : Machine) :
    Path.new machine [] = ⟨[⟨machine.initialState⟩]⟩ := rfl

/-- Membership in `generatePaths` is either the initial path or membership
in the recursive extension of the initial path. -/
theorem Path.mem_generatePaths_cases {machine : Machine} {options : MakePathOptions}
    {p : Path} (h : p ∈ Path.generatePaths machine options) :
    p = ⟨[⟨machine.initialState⟩]⟩ ∨
      p ∈ Path.generateNextPaths machine options ⟨[⟨machine.initialState⟩]⟩ := by
  unfold Path.generatePaths at h
  rw [Path.new_nil] at h
  rcases List.mem_append.mp h with h' | h'
  · left
    split at h' <;> simp_all
  · right
    exact h'

/-- The seeded initial path satisfies the per-pair bound. -/
theorem Path.countEventTargetPair_initial (machine : Machine) (type value : String) :
    Path.countEventTargetPair ⟨[⟨machine.initialState⟩]⟩ type value ≤ 2 := by
  simp only [Path.countEventTargetPair]
  have := List.length_filter_le
    (fun (s : Segment) => s.state.event.type == type && s.state.value == value)
    [⟨machine.initialState⟩]
  simp at this
  omega

/-- C1: under the default segment filter, every path yielded by
`Path.generatePaths` or `Path.makePaths` contains at most two segments with
any one (event type, target state value) pair, and the default filter
accepts a candidate segment exactly when fewer than two similar segments
already occur in the current path. -/
theorem c1_cycle_guard (machine : Machine) (options : MakePathOptions)
    (hf : options.filterSegment = none) (p : Path)
    (hp : p ∈ Path.generatePaths machine options ∨ p ∈ Path.makePaths machine options) :
    (∀ type value, p.countEventTargetPair type value ≤ 2) ∧
    (∀ segment path, Path.defaultSegmentFilter segment path = true
      ↔ path.countSimilarSegments segment < 2) := by
  constructor
  · have hp' : p ∈ Path.generatePaths machine options := by
      rcases hp with h | h
      · exact h
      · exact Path.mem_makePaths_subset h
    rcases Path.mem_generatePaths_cases hp' with h | h
    · subst h
      exact Path.countEventTargetPair_initial machine
    · rw [Path.generateNextPaths] at h
      exact Path.mem_generateNextPathsAux_pairBound machine options hf _ _
        (Path.countEventTargetPair_initial machine) p h
  · intro segment path
    simp [Path.defaultSegmentFilter]

/-- Witness for C1 on the linear machine with default options. -/
theorem c1_cycle_guard_witness : Path.countEventTargetPair pathLinear "E" "B" ≤ 2 :=
  (c1_cycle_guard machineLinear {} rfl pathLinear (Or.inl (by decide))).1 "E" "B"

/-- C2 (amended): every path yielded by `Path.generatePaths` or
`Path.makePaths` has at most `max maxLength 2` segments, counting the
synthetic initial segment; for any `maxLength` of at least two this is the
claimed ceiling `maxLength`, but the top-level call always explores one
extension level from the initial path, so for `maxLength` zero or one a
two-segment path can still be yielded. -/
theorem c2_bounding (machine : Machine) (options : MakePathOptions) (p : Path)
    (hp : p ∈ Path.generatePaths machine options ∨ p ∈ Path.makePaths machine options) :
    p.segments.length ≤ max (options.maxLength.getD 10) 2 := by
  have hp' : p ∈ Path.generatePaths machine options := by
    rcases hp with h | h
    · exact h
    · exact Path.mem_makePaths_subset h
  rcases Path.mem_generatePaths_cases hp' with h | h
  · subst h
    simp only [List.length_cons, List.length_nil]
    omega
  · rw [Path.generateNextPaths] at h
    have := Path.mem_generateNextPathsAux_length machine options _ _ p h
    simp only [List.length_cons, List.length_nil] at this
    omega

/-- Witness for C2 on the linear machine with default options. -/
theorem c2_bounding_witness :
    pathLinear.segments.length ≤ max ((MakePathOptions.mk none none false none none).maxLength.getD 10) 2 :=
  c2_bounding machineLinear {} pathLinear (Or.inl (by decide))

/-- C2 counterexample: with `maxLength` set to one, the linear machine still
yields a two-segment path, so the claimed hard ceiling is exceeded. -/
theorem c2_counterexample :
    ∃ p ∈ Path.generatePaths machineLinear optsMaxOne,
      optsMaxOne.maxLength.getD 10 < p.segments.length := by
  decide

/-- C3 counterexample: replaying a recorded segment on a machine whose
transition lands on a mismatching state makes `Segment.run` raise the
replay-mismatch error, yet the side-effect action of the reached state has
already been invoked (the trace is nonempty), because `applyEvent` runs the
actions before `assertMatchesTarget` is consulted. -/
theorem c3_counterexample :
    (segRecordedA.run machineMismatch stStart).fst
        = Except.error "Expected state to be A, but was B" ∧
    (segRecordedA.run machineMismatch stStart).snd = [0] := by
  constructor <;> rfl

/-- C3 (amended): for every caller-supplied state, `Segment.run` applies the
segment's recorded event via the machine's transition function and invokes
the side-effect actions of the resulting state sequentially in the order
the machine reports them; only after that does it assert that the reached
value matches the recorded target, succeeding exactly when the match holds
and raising the replay-mismatch error otherwise — so the actions are
invoked regardless of the assertion's outcome, in particular also when the
assertion fails. -/
theorem c3_run_order (machine : Machine) (seg : Segment) (state : XState) :
    (seg.run machine state).snd
        = Segment.runActionsTrace (machine.transition state seg.event) ∧
    ((seg.run machine state).fst = Except.ok (machine.transition state seg.event)
      ↔ machine.stateMatches seg.state (machine.transition state seg.event).value = true) := by
  constructor
  · simp only [Segment.run, Segment.applyEvent]
    split <;> rfl
  · simp only [Segment.run, Segment.applyEvent]
    split
    case isTrue h => simp [h]
    case isFalse h => simp [h]

/-- C8: the event-keyed executor never invokes any callback, because `exec`
probes its string-keyed Map with the event object itself; at the failing
input of the repository's own test (a callback registered under EVENT1 and
a state produced by an EVENT1 event) the probe misses even though the
string-keyed lookup by the event's type would find the callback. -/
theorem c8_exec_never_fires :
    (∀ (execs : List (String × Nat)) (state : XState),
      (EventExecutor.ofRecord execs).exec state = none) ∧
    (EventExecutor.ofRecord [("EVENT1", 1)]).lookupByEventType stEvent1 = some 1 ∧
    stEvent1.event.type = "EVENT1" := by
  refine ⟨?_, rfl, rfl⟩
  intro execs state
  simp only [EventExecutor.exec, EventExecutor.ofRecord]
  rw [List.find?_map]
  have hnone : List.find?
      ((fun kv => jsKeyEq kv.fst (JSKey.eventObj state.event))
        ∘ fun kv : String × Nat => (JSKey.str kv.fst, kv.snd)) execs = none := by
    apply List.find?_eq_none.mpr
    intro kv _
    simp [Function.comp, jsKeyEq]
  rw [hnone]
  rfl

/-- C9: evaluated at the failing input, the cache decorator re-invokes the
underlying getter on every read: the segment whose event type is the empty
string has the empty, falsy event description, so both of two successive
reads through the decorator invoke the original getter, while a getter
computing a truthy string is invoked only once over two reads. -/
theorem c9_cache_recomputes :
    segEmptyType.eventDescription = "" ∧
    cacheReadCount "eventDescription" (fun _ => segEmptyType.eventDescription) 2 ⟨[]⟩ = 2 ∧
    cacheReadCount "eventDescription" (fun _ => "x") 2 ⟨[]⟩ = 1 := by
  refine ⟨rfl, rfl, rfl⟩

/-! Lemmas about the deduplication pass. -/

/-- The sort precedence is transitive. -/
theorem Path.byLengthDesc_trans (a b c : Path) :
    Path.byLengthDesc a b → Path.byLengthDesc b c → Path.byLengthDesc a c := by
  simp only [Path.byLengthDesc, decide_eq_true_eq]
  omega

/-- The sort precedence is total. -/
theorem Path.byLengthDesc_total (a b : Path) :
    Path.byLengthDesc a b || Path.byLengthDesc b a := by
  simp only [Path.byLengthDesc, Bool.or_eq_true, decide_eq_true_eq]
  omega

/-- Every description contains itself. -/
theorem Path.includesPath_refl (p : Path) : p.includesPath p = true := by
  simp [Path.includesPath]

/-- The keep loop never loses accumulated paths. -/
theorem Path.mem_dedupLoop_of_mem_acc (p : Path) :
    ∀ l acc, p ∈ acc → p ∈ Path.dedupLoop acc l := by
  intro l
  induction l with
  | nil => intro acc h; exact h
  | cons x rest ih =>
    intro acc h
    simp only [Path.dedupLoop]
    split
    · exact ih acc h
    · exact ih (acc ++ [x]) (List.mem_append_left _ h)

/-- The keep loop appends a sublist of its input to its accumulator. -/
theorem Path.dedupLoop_append_sublist :
    ∀ l acc, ∃ t, Path.dedupLoop acc l = acc ++ t ∧ t.Sublist l := by
  intro l
  induction l with
  | nil => intro acc; exact ⟨[], by simp [Path.dedupLoop]⟩
  | cons x rest ih =>
    intro acc
    simp only [Path.dedupLoop]
    split
    · obtain ⟨t, ht, hts⟩ := ih acc
      exact ⟨t, ht, hts.cons x⟩
    · obtain ⟨t, ht, hts⟩ := ih (acc ++ [x])
      refine ⟨x :: t, ?_, hts.cons₂ x⟩
      rw [ht, List.append_assoc]
      rfl

/-- Along the keep loop, no earlier-kept path's description ever contains a
later-kept path's description: the acceptance check preserves this. -/
theorem Path.dedupLoop_pairwise :
    ∀ l acc, acc.Pairwise (fun a b => a.includesPath b = false) →
      (Path.dedupLoop acc l).Pairwise (fun a b => a.includesPath b = false) := by
  intro l
  induction l with
  | nil => intro acc h; exact h
  | cons x rest ih =>
    intro acc h
    simp only [Path.dedupLoop]
    split
    case isTrue => exact ih acc h
    case isFalse hany =>
      apply ih (acc ++ [x])
      rw [List.pairwise_append]
      refine ⟨h, List.pairwise_singleton _ _, ?_⟩
      intro a ha b hb
      simp only [List.mem_singleton] at hb
      subst hb
      exact Bool.eq_false_iff.mpr fun hh => hany (List.any_eq_true.mpr ⟨a, ha, hh⟩)

/-- The keep loop keeps its accumulated list free of duplicates. -/
theorem Path.dedupLoop_nodup :
    ∀ l acc, acc.Nodup → (Path.dedupLoop acc l).Nodup := by
  intro l
  induction l with
  | nil => intro acc h; exact h
  | cons x rest ih =>
    intro acc h
    simp only [Path.dedupLoop]
    split
    case isTrue => exact ih acc h
    case isFalse hany =>
      apply ih (acc ++ [x])
      have hx : x ∉ acc := by
        intro hmem
        exact hany (List.any_eq_true.mpr ⟨x, hmem, Path.includesPath_refl x⟩)
      simp [List.nodup_append, h, hx]

/-- Every input element of the keep loop is contained (description-wise) in
something the loop keeps. -/
theorem Path.dedupLoop_cover :
    ∀ l acc x, x ∈ l → ∃ y ∈ Path.dedupLoop acc l, y.includesPath x = true := by
  intro l
  induction l with
  | nil => intro acc x h; simp at h
  | cons z rest ih =>
    intro acc x hx
    simp only [Path.dedupLoop]
    rcases List.mem_cons.mp hx with rfl | hx'
    · split
      case isTrue hany =>
        obtain ⟨y, hy, hyx⟩ := List.any_eq_true.mp hany
        exact ⟨y, Path.mem_dedupLoop_of_mem_acc y rest acc hy, hyx⟩
      case isFalse =>
        exact ⟨x, Path.mem_dedupLoop_of_mem_acc x rest (acc ++ [x])
          (List.mem_append_right _ (List.mem_singleton_self x)), Path.includesPath_refl x⟩
    · split
      · exact ih acc x hx'
      · exact ih (acc ++ [z]) x hx'

/-- When nothing in the accumulator contains an input element and the input
is forward-containment-free, the keep loop keeps everything in order. -/
theorem Path.dedupLoop_no_drops :
    ∀ l acc, (∀ a ∈ acc, ∀ x ∈ l, a.includesPath x = false) →
      l.Pairwise (fun a b => a.includesPath b = false) →
      Path.dedupLoop acc l = acc ++ l := by
  intro l
  induction l with
  | nil => intro acc _ _; simp [Path.dedupLoop]
  | cons x rest ih =>
    intro acc hacc hpair
    simp only [Path.dedupLoop]
    split
    case isTrue hany =>
      exfalso
      obtain ⟨a, ha, hax⟩ := List.any_eq_true.mp hany
      have := hacc a ha x (List.mem_cons_self x rest)
      rw [this] at hax
      exact Bool.false_ne_true hax
    case isFalse =>
      have h1 : ∀ a ∈ acc ++ [x], ∀ y ∈ rest, a.includesPath y = false := by
        intro a ha y hy
        rcases List.mem_append.mp ha with ha' | ha'
        · exact hacc a ha' y (List.mem_cons_of_mem _ hy)
        · simp only [List.mem_singleton] at ha'
          subst ha'
          exact (List.pairwise_cons.mp hpair).1 y hy
      rw [ih (acc ++ [x]) h1 (List.pairwise_cons.mp hpair).2, List.append_assoc]
      rfl

/-- Under the hypothesis that description containment between distinct input
paths only goes from strictly fewer segments into strictly more segments,
the deduplicated output is containment-free between distinct paths. -/
theorem Path.deduplicate_free (paths : List Path)
    (H : ∀ p ∈ paths, ∀ q ∈ paths, q.includesPath p = true →
      p = q ∨ p.segments.length < q.segments.length) :
    ∀ p ∈ Path.deduplicate paths, ∀ q ∈ Path.deduplicate paths,
      p ≠ q → q.includesPath p = false := by
  intro p hp q hq hne
  obtain ⟨t, ht, hts⟩ :=
    Path.dedupLoop_append_sublist (paths.mergeSort Path.byLengthDesc) []
  simp only [List.nil_append] at ht
  simp only [Path.deduplicate, List.mem_reverse, ht] at hp hq
  have hsort : (paths.mergeSort Path.byLengthDesc).Pairwise
      (fun a b => Path.byLengthDesc a b = true) :=
    List.sorted_mergeSort Path.byLengthDesc_trans Path.byLengthDesc_total paths
  have hpt : t.Pairwise (fun a b => Path.byLengthDesc a b = true) :=
    List.Pairwise.sublist hts hsort
  have hfree : t.Pairwise (fun a b => a.includesPath b = false) := by
    have h0 := Path.dedupLoop_pairwise (paths.mergeSort Path.byLengthDesc) []
      List.Pairwise.nil
    rw [ht] at h0
    exact h0
  have hand := hpt.and hfree
  have hsym : Symmetric (fun a b : Path =>
      (Path.byLengthDesc a b = true ∧ a.includesPath b = false) ∨
      (Path.byLengthDesc b a = true ∧ b.includesPath a = false)) := by
    intro a b h
    exact h.symm
  have hpair := (hand.imp fun h => Or.inl h).forall hsym
  have hmem : ∀ x ∈ t, x ∈ paths := fun x hx =>
    (List.mergeSort_perm paths Path.byLengthDesc).mem_iff.mp (hts.subset hx)
  by_contra hqp
  have hqp' : q.includesPath p = true := by
    cases hb : q.includesPath p
    · exact absurd hb hqp
    · rfl
  have hlen : p.segments.length < q.segments.length := by
    rcases H p (hmem p hp) q (hmem q hq) hqp' with h | h
    · exact absurd h hne
    · exact h
  rcases hpair hp hq hne with ⟨hle, _⟩ | ⟨_, hbad⟩
  · have := of_decide_eq_true hle
    omega
  · rw [hbad] at hqp'
    exact Bool.false_ne_true hqp'

/-- Deduplication output has no duplicate entries. -/
theorem Path.deduplicate_nodup (paths : List Path) : (Path.deduplicate paths).Nodup := by
  simp only [Path.deduplicate, List.nodup_reverse]
  exact Path.dedupLoop_nodup _ [] List.nodup_nil

/-- C4 (amended): provided description containment between distinct input
paths only occurs from a path with strictly fewer segments into one with
strictly more (so no two equal-segment-count paths nest textually), the
output of `Path.deduplicate` contains no path whose description is a
substring of a different output path's description, and applying the
deduplicator twice yields the same paths as applying it once up to
reordering (a permutation rather than an identical sequence, since the
reverse step reorders equal-length paths). -/
theorem c4_dedup_idempotent (paths : List Path)
    (H : ∀ p ∈ paths, ∀ q ∈ paths, q.includesPath p = true →
      p = q ∨ p.segments.length < q.segments.length) :
    (∀ p ∈ Path.deduplicate paths, ∀ q ∈ Path.deduplicate paths,
      p ≠ q → q.includesPath p = false) ∧
    (Path.deduplicate (Path.deduplicate paths)).Perm (Path.deduplicate paths) := by
  have hfree := Path.deduplicate_free paths H
  refine ⟨hfree, ?_⟩
  have hnd : (Path.deduplicate paths).Nodup := Path.deduplicate_nodup paths
  have hs2perm := List.mergeSort_perm (Path.deduplicate paths) Path.byLengthDesc
  have hs2nd : ((Path.deduplicate paths).mergeSort Path.byLengthDesc).Nodup :=
    hs2perm.nodup_iff.mpr hnd
  have hs2free : ((Path.deduplicate paths).mergeSort Path.byLengthDesc).Pairwise
      (fun a b => a.includesPath b = false) := by
    refine List.Pairwise.imp_of_mem ?_ hs2nd
    intro a b ha hb hab
    exact hfree b (hs2perm.mem_iff.mp hb) a (hs2perm.mem_iff.mp ha) (Ne.symm hab)
  have hloop := Path.dedupLoop_no_drops
    ((Path.deduplicate paths).mergeSort Path.byLengthDesc) [] (by simp) hs2free
  have : Path.deduplicate (Path.deduplicate paths)
      = ((Path.deduplicate paths).mergeSort Path.byLengthDesc).reverse := by
    rw [Path.deduplicate, hloop]
    rfl
  rw [this]
  exact (List.reverse_perm _).trans hs2perm

/-- Witness for C4 on a containment chain of distinct lengths. -/
theorem c4_dedup_idempotent_witness :
    (Path.deduplicate (Path.deduplicate [pathS, pathTwoSegs])).Perm
      (Path.deduplicate [pathS, pathTwoSegs]) :=
  (c4_dedup_idempotent [pathS, pathTwoSegs] (by decide)).2

/-- C4 counterexample: two one-segment paths whose descriptions nest
(`E -> s` inside `E -> ss`) both survive the first pass, so the output
contains a substring pair, and a second application drops one of them, so
the deduplicator is not idempotent as stated. -/
theorem c4_counterexample :
    Path.deduplicate (Path.deduplicate [pathS, pathSS]) ≠ Path.deduplicate [pathS, pathSS] ∧
    ∃ p ∈ Path.deduplicate [pathS, pathSS], ∃ q ∈ Path.deduplicate [pathS, pathSS],
      p ≠ q ∧ q.includesPath p = true := by
  have h1 : Path.deduplicate [pathS, pathSS] = [pathSS, pathS] := by
    rw [Path.deduplicate, List.mergeSort_of_sorted (by decide)]
    decide
  have h2 : Path.deduplicate [pathSS, pathS] = [pathSS] := by
    rw [Path.deduplicate, List.mergeSort_of_sorted (by decide)]
    decide
  constructor
  · rw [h1, h2]
    decide
  · rw [h1]
    decide

/-- C5: deduplication always keeps a path that is the strictly unique
longest input path, and on pairwise non-containing inputs it is a no-op up
to reordering: the output is a permutation of the input. -/
theorem c5_dedup_preserves (paths : List Path) (p : Path) :
    ((p ∈ paths ∧ ∀ q ∈ paths, q ≠ p → q.segments.length < p.segments.length) →
      p ∈ Path.deduplicate paths) ∧
    (paths.Pairwise (fun a b => a.includesPath b = false ∧ b.includesPath a = false) →
      (Path.deduplicate paths).Perm paths) := by
  constructor
  · rintro ⟨hp, hmax⟩
    have hperm := List.mergeSort_perm paths Path.byLengthDesc
    have hpmem : p ∈ paths.mergeSort Path.byLengthDesc := hperm.mem_iff.mpr hp
    have hsorted : (paths.mergeSort Path.byLengthDesc).Pairwise
        (fun a b => Path.byLengthDesc a b = true) :=
      List.sorted_mergeSort Path.byLengthDesc_trans Path.byLengthDesc_total paths
    rcases hsc : paths.mergeSort Path.byLengthDesc with _ | ⟨h, tl⟩
    · rw [hsc] at hpmem
      simp at hpmem
    · rw [hsc] at hpmem hsorted
      have hhp : h = p := by
        by_contra hne
        have hh : h ∈ paths := hperm.mem_iff.mp (hsc ▸ List.mem_cons_self h tl)
        have h1 : h.segments.length < p.segments.length := hmax h hh hne
        have hpt : p ∈ tl := by
          rcases List.mem_cons.mp hpmem with h' | h'
          · exact absurd h'.symm hne
          · exact h'
        have h2 := (List.pairwise_cons.mp hsorted).1 p hpt
        have h3 := of_decide_eq_true h2
        omega
      subst hhp
      rw [Path.deduplicate, List.mem_reverse, hsc]
      simp only [Path.dedupLoop, List.any_nil]
      rw [if_neg (by simp)]
      exact Path.mem_dedupLoop_of_mem_acc h tl ([] ++ [h])
        (List.mem_append_right _ (List.mem_singleton_self h))
  · intro hpnc
    have hperm := List.mergeSort_perm paths Path.byLengthDesc
    have hs : (paths.mergeSort Path.byLengthDesc).Pairwise
        (fun a b => a.includesPath b = false ∧ b.includesPath a = false) :=
      (hperm.pairwise_iff fun hab => ⟨hab.2, hab.1⟩).mpr hpnc
    have hfree := hs.imp fun hab => hab.1
    rw [Path.deduplicate, Path.dedupLoop_no_drops _ [] (by simp) hfree]
    exact (List.reverse_perm _).trans hperm

/-- Witness for C5: the unique longest path survives, and a singleton input
is returned up to permutation. -/
theorem c5_dedup_preserves_witness :
    pathTwoSegs ∈ Path.deduplicate [pathTwoSegs, pathS] ∧
    (Path.deduplicate [pathS]).Perm [pathS] :=
  ⟨(c5_dedup_preserves [pathTwoSegs, pathS] pathTwoSegs).1 (by decide),
   (c5_dedup_preserves [pathS] pathS).2 (by decide)⟩

/-- C10: `Path.deduplicate` sorts the caller's array in place. The content
of the argument array after the call is a permutation of the original
ordered longest-first, and there are inputs (any not already so ordered)
that the call does not leave unchanged. -/
theorem c10_sorts_argument_in_place :
    (∀ paths : List Path, (Path.deduplicateArgEffect paths).Perm paths ∧
      (Path.deduplicateArgEffect paths).Pairwise
        (fun a b => b.segments.length ≤ a.segments.length)) ∧
    Path.deduplicateArgEffect [pathS, pathTwoSegs] ≠ [pathS, pathTwoSegs] := by
  constructor
  · intro paths
    refine ⟨List.mergeSort_perm paths Path.byLengthDesc, ?_⟩
    have hs : (paths.mergeSort Path.byLengthDesc).Pairwise
        (fun a b => Path.byLengthDesc a b = true) :=
      List.sorted_mergeSort Path.byLengthDesc_trans Path.byLengthDesc_total paths
    exact hs.imp fun hab => of_decide_eq_true hab
  · intro h
    have hs : (Path.deduplicateArgEffect [pathS, pathTwoSegs]).Pairwise
        (fun a b => Path.byLengthDesc a b = true) :=
      List.sorted_mergeSort Path.byLengthDesc_trans Path.byLengthDesc_total _
    rw [h] at hs
    have h2 := (List.pairwise_cons.mp hs).1 pathTwoSegs (List.mem_cons_self _ _)
    exact absurd h2 (by decide)

/-- The loop of `generateNextEvents` is concatenation over the types. -/
theorem EventSource.generateEventsForTypes_eq_flatMap (es : EventSource) :
    ∀ types : List String,
      es.generateEventsForTypes types = types.flatMap es.generateEvents := by
  intro types
  induction types with
  | nil => rfl
  | cons t rest ih =>
    simp only [EventSource.generateEventsForTypes, List.flatMap_cons, ih]

/-- C7: for every state, `generateNextEvents` yields exactly the
concatenation of `generateEvents` over the state's enabled event types in
the state's own order; a type with no registered source yields exactly the
single payload-free event of that type; and a registered source contributes
exactly its own events in their order. -/
theorem c7_event_source :
    (∀ (es : EventSource) (fromState : XState),
      es.generateNextEvents fromState
        = fromState.nextEvents.flatMap es.generateEvents) ∧
    (∀ (es : EventSource) (type : String), es.sources type = none →
      es.generateEvents type = [{ type := type }]) ∧
    (∀ (options : List (String × EventSourceArg)) (type : String) (arg : EventSourceArg),
      ((options.find? fun kv => kv.fst == type).map fun kv => kv.snd) = some arg →
      (EventSource.ofMap options).generateEvents type = arg.argEvents) := by
  refine ⟨?_, ?_, ?_⟩
  · intro es fromState
    exact EventSource.generateEventsForTypes_eq_flatMap es fromState.nextEvents
  · intro es type hnone
    simp [EventSource.generateEvents, hnone]
  · intro opts type arg hfind
    rcases hfe : opts.find? fun kv => kv.fst == type with _ | kv
    · rw [hfe] at hfind
      simp at hfind
    · rw [hfe] at hfind
      simp only [Option.map_some', Option.some_inj] at hfind
      simp only [EventSource.generateEvents, EventSource.ofMap, hfe, Option.map_some']
      rw [← hfind]
      rcases kv with ⟨k, a⟩
      cases a <;> rfl

/-- An event of type `E` with a serialized payload, for the witnesses. -/
def evPayload1 : XEvent := { type := "E", dataStr := some "p1" }

/-- A second payload variant of the `E` event. -/
def evPayload2 : XEvent := { type := "E", dataStr := some "p2" }

/-- Witness for C7: concatenation over the start state's types, the default
single event for an unregistered type, and a registered fixed list yielding
exactly its own events. -/
theorem c7_event_source_witness :
    EventSource.empty.generateNextEvents stStart
        = stStart.nextEvents.flatMap EventSource.empty.generateEvents ∧
    EventSource.empty.generateEvents "E" = [{ type := "E" }] ∧
    (EventSource.ofMap [("E", EventSourceArg.fixedList [evPayload1, evPayload2])]).generateEvents "E"
        = (EventSourceArg.fixedList [evPayload1, evPayload2]).argEvents :=
  ⟨c7_event_source.1 EventSource.empty stStart,
   c7_event_source.2.1 EventSource.empty "E" rfl,
   c7_event_source.2.2 [("E", EventSourceArg.fixedList [evPayload1, evPayload2])] "E"
     (EventSourceArg.fixedList [evPayload1, evPayload2]) rfl⟩

/-- C6: the machine collaborator is a pure deterministic transition function
in this model, and generation is a pure function of the machine, the event
source, and the options; under the restartability assumption — a second
invocation of every registered source reproduces the same event sequence,
stated as pointwise agreement of the two runs' source maps — two runs of
`Path.generatePaths` yield structurally identical path sequences in the
same order. -/
theorem c6_determinism (machine : Machine) (es1 es2 : EventSource)
    (options : MakePathOptions)
    (hes : ∀ type, es1.sources type = es2.sources type) :
    Path.generatePaths machine { options with eventSource := some es1 }
      = Path.generatePaths machine { options with eventSource := some es2 } := by
  have hes' : es1 = es2 := by
    cases es1
    cases es2
    congr 1
    funext type
    exact hes type
  rw [hes']

/-- Witness for C6: two runs over the linear machine with the empty source. -/
theorem c6_determinism_witness :
    Path.generatePaths machineLinear
        { ({} : MakePathOptions) with eventSource := some EventSource.empty }
      = Path.generatePaths machineLinear
        { ({} : MakePathOptions) with eventSource := some EventSource.empty } :=
  c6_determinism machineLinear EventSource.empty EventSource.empty {} fun _ => rfl

end XStatePaths
